import Mathlib

/-!
Verification of `mvpa2/misc/fx.py` (PyMVPA).

Floating-point values are idealised as exact real (or, for the purely
field-arithmetic routines, rational) numbers.  Intermediate complex
arithmetic in `single_gamma_hrf` is modelled with `ℂ`; `0j ** p` is
`Complex.cpow`, which agrees with Python for exponents with positive real
part (the only case arising under the documented parameter ranges A, W > 0).
External collaborators (SciPy's least-squares solver, NumPy's SVD, random
normal sampling and histogram routine) are abstracted as function
parameters, constrained only by the contracts the spec states for them.
-/

namespace Fx

open scoped Real Matrix

/-- The complex intermediate value `res` computed by `single_gamma_hrf`
(`fx.py` line 38):
`res = K * (t / A) + 0j ** ((A ** 2) / (W ** 2) * 8.0 * np.log(2.0))
       * np.e ** ((t - A) / -((W + 0j ** 2) / A / 8.0 / np.log(2.0)))`. -/
noncomputable def single_gamma_hrf_complex (t A W K : ℝ) : ℂ :=
  ((K * (t / A) : ℝ) : ℂ) +
    (0 : ℂ) ^ ((A ^ 2 / W ^ 2 * 8 * Real.log 2 : ℝ) : ℂ) *
      Complex.exp (((t - A : ℝ) : ℂ) /
        -((((W : ℝ) : ℂ) + (0 : ℂ) ^ (2 : ℕ)) / ((A : ℝ) : ℂ) / 8 /
          ((Real.log 2 : ℝ) : ℂ)))

/-- Model of `single_gamma_hrf(t, A, W, K)` (`fx.py` lines 17-41): returns `res.real`.
Defaults in the source are A=5.4, W=5.2, K=1.0. -/
noncomputable def single_gamma_hrf (t A W K : ℝ) : ℝ :=
  (single_gamma_hrf_complex t A W K).re

/-- Model of `double_gamma_hrf` (`fx.py` lines 44-69): difference of two single-gamma
models.  Defaults: A1=5.4, W1=5.2, K1=1.0, A2=10.8, W2=7.35, K2=0.35. -/
noncomputable def double_gamma_hrf (t A1 W1 K1 A2 W2 K2 : ℝ) : ℝ :=
  single_gamma_hrf t A1 W1 K1 - single_gamma_hrf t A2 W2 K2

lemma gamma_exponent_ne_zero {A W : ℝ} (hA : 0 < A) (hW : 0 < W) :
    A ^ 2 / W ^ 2 * 8 * Real.log 2 ≠ 0 := by
  have h2 : (0 : ℝ) < Real.log 2 := Real.log_pos (by norm_num)
  positivity

lemma single_gamma_hrf_complex_eq (t A W K : ℝ) (hA : 0 < A) (hW : 0 < W) :
    single_gamma_hrf_complex t A W K = ((K * (t / A) : ℝ) : ℂ) := by
  unfold single_gamma_hrf_complex
  rw [Complex.zero_cpow (by exact_mod_cast gamma_exponent_ne_zero hA hW)]
  ring

/-- C1: for every (finite) real `t` and all `A > 0`, `W > 0`, any `K`,
`single_gamma_hrf t A W K = K * t / A`: the factor `0j ** p` with positive
exponent `p = (A^2/W^2)*8*ln 2` is exactly zero, so the whole exponential
term contributes nothing and the function is linear in `t`. -/
theorem single_gamma_hrf_linear (t A W K : ℝ) (hA : 0 < A) (hW : 0 < W) :
    single_gamma_hrf t A W K = K * t / A := by
  unfold single_gamma_hrf
  rw [single_gamma_hrf_complex_eq t A W K hA hW, Complex.ofReal_re,
    mul_div_assoc]

/-- Witness for C1 at t=5, A=2, W=3, K=7. -/
theorem single_gamma_hrf_linear_witness :
    (0 : ℝ) < 2 ∧ (0 : ℝ) < 3 ∧ single_gamma_hrf 5 2 3 7 = 7 * 5 / 2 :=
  ⟨by norm_num, by norm_num,
    single_gamma_hrf_linear 5 2 3 7 (by norm_num) (by norm_num)⟩

/-- C2: for every real `t`, all `A > 0`, `W > 0` and any `K`, the complex
intermediate of `single_gamma_hrf` has zero imaginary part, and the returned
value is exactly its real component: the result is real with no residual
imaginary component. -/
theorem single_gamma_hrf_real_valued (t A W K : ℝ) (hA : 0 < A) (hW : 0 < W) :
    (single_gamma_hrf_complex t A W K).im = 0 ∧
      single_gamma_hrf t A W K = (single_gamma_hrf_complex t A W K).re := by
  refine ⟨?_, rfl⟩
  rw [single_gamma_hrf_complex_eq t A W K hA hW, Complex.ofReal_im]

/-- Witness for C2 at t=-1, A=1, W=1, K=4. -/
theorem single_gamma_hrf_real_valued_witness :
    (0 : ℝ) < 1 ∧
      (single_gamma_hrf_complex (-1) 1 1 4).im = 0 ∧
      single_gamma_hrf (-1) 1 1 4 = (single_gamma_hrf_complex (-1) 1 1 4).re :=
  ⟨by norm_num,
    (single_gamma_hrf_real_valued (-1) 1 1 4 (by norm_num) (by norm_num)).1,
    (single_gamma_hrf_real_valued (-1) 1 1 4 (by norm_num) (by norm_num)).2⟩

/-- C3: `double_gamma_hrf t A1 W1 K1 A2 W2 K2` equals
`single_gamma_hrf t A1 W1 K1 - single_gamma_hrf t A2 W2 K2` for every
argument choice — exact algebraic identity (`fx.py` line 69). -/
theorem double_gamma_hrf_eq (t A1 W1 K1 A2 W2 K2 : ℝ) :
    double_gamma_hrf t A1 W1 K1 A2 W2 K2 =
      single_gamma_hrf t A1 W1 K1 - single_gamma_hrf t A2 W2 K2 := rfl

/-- Model of `scipy.stats.norm.pdf x mean std`: the normal probability density
function, `exp(-(x-mean)^2 / (2 std^2)) / (std * sqrt(2 π))`. -/
noncomputable def norm_pdf (x mean std : ℝ) : ℝ :=
  Real.exp (-(x - mean) ^ 2 / (2 * std ^ 2)) / (std * Real.sqrt (2 * π))

/-- Model of `dual_gaussian` (`fx.py` lines 72-97): the `np.nan` sentinel return is
modelled as `none`, a normal return as `some`. -/
noncomputable def dual_gaussian (x amp1 mean1 std1 amp2 mean2 std2 : ℝ) :
    Option ℝ :=
  if std1 ≤ 0 ∨ std2 ≤ 0 then none
  else some (amp1 * norm_pdf x mean1 std1 + amp2 * norm_pdf x mean2 std2)

/-- Model of `dual_positive_gaussian` (`fx.py` lines 100-124). -/
noncomputable def dual_positive_gaussian (x amp1 mean1 std1 amp2 mean2 std2 : ℝ) :
    Option ℝ :=
  if amp1 < 0 ∨ amp2 < 0 then none
  else dual_gaussian x amp1 mean1 std1 amp2 mean2 std2

/-- C4: `dual_gaussian` returns the NaN sentinel iff `std1 ≤ 0` or
`std2 ≤ 0`; for positive standard deviations it returns
`amp1 * N(x; mean1, std1) + amp2 * N(x; mean2, std2)`. -/
theorem dual_gaussian_spec (x amp1 mean1 std1 amp2 mean2 std2 : ℝ) :
    (dual_gaussian x amp1 mean1 std1 amp2 mean2 std2 = none ↔
      std1 ≤ 0 ∨ std2 ≤ 0) ∧
    (0 < std1 → 0 < std2 →
      dual_gaussian x amp1 mean1 std1 amp2 mean2 std2 =
        some (amp1 * norm_pdf x mean1 std1 + amp2 * norm_pdf x mean2 std2)) := by
  constructor
  · unfold dual_gaussian
    by_cases h : std1 ≤ 0 ∨ std2 ≤ 0 <;> simp [h]
  · intro h1 h2
    unfold dual_gaussian
    rw [if_neg]
    push_neg
    exact ⟨h1, h2⟩

/-- Witness for C4 at x=0, amp1=3, mean1=0, std1=1, amp2=2, mean2=1, std2=2. -/
theorem dual_gaussian_spec_witness :
    (0 : ℝ) < 1 ∧ (0 : ℝ) < 2 ∧
      dual_gaussian 0 3 0 1 2 1 2 =
        some (3 * norm_pdf 0 0 1 + 2 * norm_pdf 0 1 2) :=
  ⟨by norm_num, by norm_num,
    (dual_gaussian_spec 0 3 0 1 2 1 2).2 (by norm_num) (by norm_num)⟩

/-- C10: `dual_positive_gaussian` returns the NaN sentinel whenever an
amplitude is negative, and for non-negative amplitudes it delegates to
`dual_gaussian` on the same arguments (so an invalid standard deviation
still yields the sentinel through the delegation). -/
theorem dual_positive_gaussian_spec (x amp1 mean1 std1 amp2 mean2 std2 : ℝ) :
    (amp1 < 0 ∨ amp2 < 0 →
      dual_positive_gaussian x amp1 mean1 std1 amp2 mean2 std2 = none) ∧
    (0 ≤ amp1 → 0 ≤ amp2 →
      dual_positive_gaussian x amp1 mean1 std1 amp2 mean2 std2 =
        dual_gaussian x amp1 mean1 std1 amp2 mean2 std2) := by
  constructor
  · intro h
    unfold dual_positive_gaussian
    rw [if_pos h]
  · intro h1 h2
    unfold dual_positive_gaussian
    rw [if_neg]
    push_neg
    exact ⟨h1, h2⟩

/-- Witness for C10 at x=1, amplitudes 2 and 0, with std2=-1 still flowing
through the delegation. -/
theorem dual_positive_gaussian_spec_witness :
    (0 : ℝ) ≤ 2 ∧ (0 : ℝ) ≤ 0 ∧
      dual_positive_gaussian 1 2 0 1 0 0 (-1) = dual_gaussian 1 2 0 1 0 0 (-1) :=
  ⟨by norm_num, le_refl 0,
    (dual_positive_gaussian_spec 1 2 0 1 0 0 (-1)).2 (by norm_num) le_rfl⟩

/-- A NumPy 1-D or 2-D float array, idealised over `ℚ`. -/
inductive NPArr where
  | d1 (v : List ℚ)
  | d2 (m : List (List ℚ))
  deriving DecidableEq

/-- Model of `np.ravel`: flatten to 1-D. -/
def NPArr.ravel : NPArr → List ℚ
  | .d1 v => v
  | .d2 m => m.flatten

/-- NumPy broadcasting subtraction `a - w` of a 1-D array `w` from `a`
(row-wise when `a` is 2-D), as used by `efx` (`fx.py` line 185). -/
def NPArr.sub : NPArr → List ℚ → NPArr
  | .d1 v, w => .d1 (List.zipWith (· - ·) v w)
  | .d2 m, w => .d2 (m.map (fun r => List.zipWith (· - ·) r w))

/-- Model of `least_sq_fit` (`fx.py` lines 127-189).  The external
`scipy.optimize.leastsq` solver is abstracted as the parameter `leastsq`:
it receives the residual function `efx` and the start parameters and
returns the `(fitted_params, status_code)` pair, which `least_sq_fit`
passes through unchanged. -/
def least_sq_fit (leastsq : (List ℚ → NPArr) → List ℚ → List ℚ × ℤ)
    (fx : List ℚ → List ℚ → List ℚ) (params : List ℚ)
    (y : NPArr) (x : Option (List ℚ)) : List ℚ × ℤ :=
  let nsamp := match y with | .d2 m => m.length | .d1 _ => 1
  let ylen := match y with | .d2 m => (m.headD []).length | .d1 v => v.length
  let x0 := x.getD ((List.range ylen).map (fun i => (i : ℚ)))
  let x1 := if 1 < nsamp then (List.replicate nsamp x0).flatten else x0
  let y1 := if 1 < nsamp then NPArr.d1 y.ravel else y
  let efx := fun p => y1.sub (fx x1 p)
  leastsq efx params

lemma flatten_getElem? {α : Type} (ll : List (List α)) (m : ℕ)
    (hm : ∀ r ∈ ll, r.length = m) :
    ∀ i j, i < ll.length → j < m →
      ll.flatten[i * m + j]? = ll[i]?.bind (fun r => r[j]?) := by
  induction ll with
  | nil => intro i j hi _; simp at hi
  | cons r t ih =>
    intro i j hi hj
    have hr : r.length = m := hm r (List.mem_cons_self r t)
    match i with
    | 0 =>
      simp only [List.flatten_cons, Nat.zero_mul, Nat.zero_add,
        List.getElem?_cons_zero]
      rw [List.getElem?_append, if_pos (by omega)]
      rfl
    | i + 1 =>
      have hidx : (i + 1) * m + j = m + (i * m + j) := by ring
      simp only [List.flatten_cons, List.getElem?_cons_succ]
      rw [hidx, List.getElem?_append_right (by omega), hr,
        Nat.add_sub_cancel_left]
      exact ih (fun s hs => hm s (List.mem_cons_of_mem r hs)) i j
        (by simpa using Nat.lt_of_succ_lt_succ hi) hj

/-- A probe solver standing in for `scipy.optimize.leastsq`: it reports in
the status code whether the residual function hands it a 1-D (code 1) or a
2-D (code 2) array at the start parameters. -/
def probe_solver : (List ℚ → NPArr) → List ℚ → List ℚ × ℤ :=
  fun f p => ([], match f p with | .d1 _ => 1 | .d2 _ => 2)

/-- A probe model function: identically zero predictions. -/
def probe_fx : List ℚ → List ℚ → List ℚ := fun x _ => x.map (fun _ => 0)

/-- C5 counterexample: for the single-row 2-D observation `y = [[1, 2]]`
the code does NOT flatten `y` to 1-D (the `nsamp > 1` guard fails), so the
solver receives a 2-D residual; the claim predicts the flattened 1-D
residual, and the two calls return observably different results. -/
theorem least_sq_fit_counterexample :
    least_sq_fit probe_solver probe_fx [] (NPArr.d2 [[1, 2]]) (some [5, 6]) =
        ([], 2) ∧
      probe_solver (fun p => NPArr.d1 (List.zipWith (· - ·) ([1, 2] : List ℚ)
        (probe_fx [5, 6] p))) [] = ([], 1) ∧
      ((([], 2) : List ℚ × ℤ) ≠ ([], 1)) :=
  ⟨rfl, rfl, by decide⟩

/-- C5 (amended): for a 2-D `y` with at least two rows (the code's
`nsamp > 1` branch), `x` is tiled `n_rows` times and `y` flattened to 1-D,
the flattened position `i*m + j` pairing with `x[j]` and `y[i][j]`, the
residual handed to the solver is `y_flat - fx(x_flat, p)`, and the solver's
`(fitted_params, status_code)` pair is returned unchanged. -/
theorem least_sq_fit_tiles (leastsq : (List ℚ → NPArr) → List ℚ → List ℚ × ℤ)
    (fx : List ℚ → List ℚ → List ℚ) (params : List ℚ)
    (rows : List (List ℚ)) (x : List ℚ) (m : ℕ)
    (hm : ∀ r ∈ rows, r.length = m) (hx : x.length = m)
    (h2 : 2 ≤ rows.length) :
    least_sq_fit leastsq fx params (NPArr.d2 rows) (some x) =
      leastsq (fun p => NPArr.d1 (List.zipWith (· - ·) rows.flatten
        (fx ((List.replicate rows.length x).flatten) p))) params ∧
    (∀ i j, i < rows.length → j < m →
      ((List.replicate rows.length x).flatten)[i * m + j]? = x[j]? ∧
      rows.flatten[i * m + j]? = rows[i]?.bind (fun r => r[j]?)) := by
  have hlt : 1 < rows.length := by omega
  constructor
  · simp only [least_sq_fit, NPArr.ravel, NPArr.sub, Option.getD_some,
      if_pos hlt]
  · intro i j hi hj
    refine ⟨?_, flatten_getElem? rows m hm i j hi hj⟩
    rw [flatten_getElem? (List.replicate rows.length x) m
      (fun r hr => by rw [List.eq_of_mem_replicate hr, hx]) i j
      (by simpa using hi) hj]
    rw [List.getElem?_replicate, if_pos hi]
    rfl

/-- Witness for C5 (amended) at `rows = [[1], [2]]`, `x = [0]`, `m = 1`. -/
theorem least_sq_fit_tiles_witness :
    (∀ r ∈ ([[1], [2]] : List (List ℚ)), r.length = 1) ∧
      ([0] : List ℚ).length = 1 ∧
      2 ≤ ([[1], [2]] : List (List ℚ)).length ∧
      (least_sq_fit probe_solver probe_fx [] (NPArr.d2 [[1], [2]])
          (some [0]) =
        probe_solver (fun p => NPArr.d1 (List.zipWith (· - ·)
          ([[1], [2]] : List (List ℚ)).flatten
          (probe_fx ((List.replicate ([[1], [2]] : List (List ℚ)).length
            [0]).flatten) p))) [] ∧
      (∀ i j, i < ([[1], [2]] : List (List ℚ)).length → j < 1 →
        ((List.replicate ([[1], [2]] : List (List ℚ)).length
          ([0] : List ℚ)).flatten)[i * 1 + j]? = ([0] : List ℚ)[j]? ∧
        ([[1], [2]] : List (List ℚ)).flatten[i * 1 + j]? =
          ([[1], [2]] : List (List ℚ))[i]?.bind (fun r => r[j]?))) :=
  ⟨by decide, by decide, by decide,
    least_sq_fit_tiles probe_solver probe_fx [] [[1], [2]] [0] 1
      (by decide) (by decide) (by decide)⟩

/-- Model of `np.round(x, decimals=6)`: round to six decimal places.  (NumPy rounds
half to even; `round` rounds half up — the two agree except at exact ties,
which none of the verified properties depend on.) -/
def round6 (x : ℚ) : ℚ := (round (x * 1000000) : ℚ) / 1000000

/-- The histogram range used by `fit2histogram` (`fx.py` lines 221-223):
the supplied `x_range`, or else the global `(X.min(), X.max())`. -/
def histRange (X : List (List ℚ)) (x_range : Option (ℚ × ℚ)) : ℚ × ℚ :=
  x_range.getD (X.flatten.min?.getD 0, X.flatten.max?.getD 0)

/-- Model of `np.linspace lo hi (n+1)`: the `n+1` equally spaced bin edges NumPy's
histogram produces for `n` bins over `[lo, hi]`. -/
def np_linspace (lo hi : ℚ) (n : ℕ) : List ℚ :=
  (List.range (n + 1)).map (fun i : ℕ => lo + (i : ℚ) * (hi - lo) / (n : ℚ))

/-- Model of `np.histogram v nbins r`, modelled from the spec's
external-interface contract: `nbins` equal-width bins over the range,
half-open except for the last bin, returning `(counts, edges)` with
`nbins + 1` edges. -/
def np_histogram (v : List ℚ) (nbins : ℕ) (r : ℚ × ℚ) : List ℚ × List ℚ :=
  let edges := np_linspace r.1 r.2 nbins
  ((List.range nbins).map (fun j =>
      ((v.countP (fun a => decide (edges.getD j 0 ≤ a ∧
        (a < edges.getD (j + 1) 0 ∨ (j + 1 = nbins ∧ a ≤ r.2))))) : ℚ)),
    edges)

/-- The distinct rounded bin widths of `fit2histogram` (`fx.py` lines
232-239): `np.unique(np.round(bin_left - edges[1:], decimals=6))` computed
from the first row's histogram.  (`np.unique` also sorts; only the number
of distinct values and the sole element of a singleton matter here.) -/
def rounded_bin_widths (hist : List ℚ → ℕ → ℚ × ℚ → List ℚ × List ℚ)
    (X : List (List ℚ)) (nbins : ℕ) (x_range : Option (ℚ × ℚ)) : List ℚ :=
  let edges := (hist (X.headD []) nbins (histRange X x_range)).2
  ((List.zipWith (· - ·) edges.dropLast edges.tail).map round6).dedup

/-- Model of `fit2histogram` (`fx.py` lines 192-251).  The external NumPy histogram
routine and SciPy solver are abstracted as parameters `hist` and `lsq`.
`none` models an uncaught exception: the `np.asscalar` call on a
non-singleton unique-width array (and the `NameError` on an empty `X`,
whose loop never assigns `bin_width`). -/
def fit2histogram (hist : List ℚ → ℕ → ℚ × ℚ → List ℚ × List ℚ)
    (lsq : (List ℚ → NPArr) → List ℚ → List ℚ × ℤ)
    (X : List (List ℚ)) (fx : List ℚ → List ℚ → List ℚ) (params : List ℚ)
    (nbins : ℕ) (x_range : Option (ℚ × ℚ)) :
    Option (NPArr × List ℚ × ℚ × (List ℚ × ℤ)) :=
  match X with
  | [] => none
  | _ :: _ =>
    match rounded_bin_widths hist X nbins x_range with
    | [w] =>
      let xr := histRange X x_range
      let edges := (hist (X.headD []) nbins xr).2
      let bin_left := edges.dropLast
      let bin_width := |w|
      let bin_centers := bin_left.map (fun e => e + bin_width / 2)
      let H : NPArr := match X.map (fun r => (hist r nbins xr).1) with
        | [c] => .d1 c
        | cs => .d2 cs
      some (H, bin_left, bin_width,
        least_sq_fit lsq fx params H (some bin_centers))
    | _ => none

/-- C8: for a nonempty `X`, `fit2histogram` fails (the single-value
extraction `np.asscalar` raises) exactly when rounding the histogram-edge
differences to 6 decimal places yields a number of distinct values other
than one; it returns normally only when the rounded bin widths collapse to
a single unique value. -/
theorem fit2histogram_fails_iff (hist : List ℚ → ℕ → ℚ × ℚ → List ℚ × List ℚ)
    (lsq : (List ℚ → NPArr) → List ℚ → List ℚ × ℤ)
    (X : List (List ℚ)) (fx : List ℚ → List ℚ → List ℚ) (params : List ℚ)
    (nbins : ℕ) (x_range : Option (ℚ × ℚ)) (hX : X ≠ []) :
    fit2histogram hist lsq X fx params nbins x_range = none ↔
      (rounded_bin_widths hist X nbins x_range).length ≠ 1 := by
  match X with
  | [] => exact absurd rfl hX
  | r0 :: rest =>
    rcases h : rounded_bin_widths hist (r0 :: rest) nbins x_range with
      _ | ⟨w, _ | ⟨v, t⟩⟩
    · simp [fit2histogram, h]
    · simp [fit2histogram, h]
    · simp [fit2histogram, h]

/-- A degenerate-edge histogram routine used to exercise the failure path
of the bin-width uniqueness check: it always reports edges `[0, 1/3, 1]`,
whose differences round to two distinct values. -/
def skew_hist : List ℚ → ℕ → ℚ × ℚ → List ℚ × List ℚ :=
  fun _ _ _ => ([], [0, 1/3, 1])

/-- Witness for C8: a nonempty `X` and a histogram behaviour with two
distinct rounded widths, on which `fit2histogram` indeed fails. -/
theorem fit2histogram_fails_iff_witness :
    ([[0]] : List (List ℚ)) ≠ [] ∧
      (rounded_bin_widths skew_hist [[0]] 2 none).length = 2 ∧
      (fit2histogram skew_hist probe_solver [[0]] probe_fx [] 2 none = none ↔
        (rounded_bin_widths skew_hist [[0]] 2 none).length ≠ 1) :=
  ⟨by simp, by
    simp only [rounded_bin_widths, skew_hist, histRange]
    rw [show (([0, 1/3, 1] : List ℚ)).dropLast = [0, 1/3] from rfl]
    rw [show (([0, 1/3, 1] : List ℚ)).tail = [1/3, 1] from rfl]
    simp only [List.zipWith_cons_cons, List.zipWith_nil_right, List.map_cons,
      List.map_nil]
    norm_num [round6, round_eq, List.dedup],
    fit2histogram_fails_iff skew_hist probe_solver [[0]] probe_fx [] 2 none
      (by simp)⟩

lemma abs_round6_sub (x : ℚ) : |round6 x - x| ≤ 1 / 2000000 := by
  unfold round6
  have h : |(round (x * 1000000) : ℚ) - x * 1000000| ≤ 1 / 2 := by
    rw [abs_sub_comm]
    exact abs_sub_round (x * 1000000)
  have he : (round (x * 1000000) : ℚ) / 1000000 - x =
      ((round (x * 1000000) : ℚ) - x * 1000000) / 1000000 := by ring
  rw [he, abs_div, abs_of_pos (by norm_num : (0 : ℚ) < 1000000)]
  calc |(round (x * 1000000) : ℚ) - x * 1000000| / 1000000
      ≤ (1 / 2) / 1000000 := by gcongr
    _ = 1 / 2000000 := by norm_num

lemma dedup_replicate {α : Type} [DecidableEq α] (a : α) :
    ∀ n : ℕ, 1 ≤ n → (List.replicate n a).dedup = [a]
  | 0, h => absurd h (by omega)
  | 1, _ => by simp
  | n + 2, _ => by
    rw [List.replicate_succ, List.dedup_cons_of_mem]
    · exact dedup_replicate a (n + 1) (by omega)
    · simp [List.mem_replicate]

lemma zip_diffs (lo hi : ℚ) (n : ℕ) (hn : 1 ≤ n) :
    ((List.zipWith (· - ·) (np_linspace lo hi n).dropLast
      (np_linspace lo hi n).tail).map round6).dedup =
      [round6 (-((hi - lo) / n))] := by
  unfold np_linspace
  have h1 : ((List.range (n + 1)).map
        (fun i : ℕ => lo + i * (hi - lo) / n)).dropLast =
      (List.range n).map (fun i : ℕ => lo + i * (hi - lo) / n) := by
    rw [← List.map_dropLast, List.range_succ, List.dropLast_concat]
  have h2 : ((List.range (n + 1)).map
        (fun i : ℕ => lo + i * (hi - lo) / n)).tail =
      (List.range n).map (fun i : ℕ => lo + ((i + 1 : ℕ) : ℚ) * (hi - lo) / n) := by
    rw [← List.map_tail, List.range_succ_eq_map]
    rw [show (0 :: (List.range n).map Nat.succ).tail =
      (List.range n).map Nat.succ from rfl]
    rw [List.map_map]
    exact List.map_congr_left (fun i _ => rfl)
  rw [h1, h2, List.zipWith_map, List.zipWith_same, List.map_map]
  have h3 : ∀ i ∈ List.range n,
      (round6 ∘ fun i : ℕ => lo + i * (hi - lo) / n -
        (lo + ((i + 1 : ℕ) : ℚ) * (hi - lo) / n)) i =
      round6 (-((hi - lo) / n)) := by
    intro i _
    simp only [Function.comp]
    congr 1
    push_cast
    ring
  rw [List.map_congr_left h3,
    show (fun _ : ℕ => round6 (-((hi - lo) / n))) =
      Function.const ℕ (round6 (-((hi - lo) / n))) from rfl,
    List.map_const, List.length_range]
  exact dedup_replicate _ n hn

lemma rounded_bin_widths_np (X : List (List ℚ)) (nbins : ℕ)
    (x_range : Option (ℚ × ℚ)) (hn : 1 ≤ nbins) :
    rounded_bin_widths np_histogram X nbins x_range =
      [round6 (-(((histRange X x_range).2 - (histRange X x_range).1) /
        nbins))] := by
  unfold rounded_bin_widths np_histogram
  exact zip_diffs _ _ nbins hn

/-- C9: whenever `fit2histogram` (with the spec's NumPy histogram model)
returns, the returned scalar `bin_width` is within `1e-6` of
`(x_range.2 - x_range.1) / nbins`, where the range defaults to the global
`(X.min(), X.max())`.  (The hypothesis `lo ≤ hi` reflects that NumPy's
histogram raises on a reversed range, so the pipeline never returns
there.) -/
theorem fit2histogram_bin_width
    (lsq : (List ℚ → NPArr) → List ℚ → List ℚ × ℤ)
    (X : List (List ℚ)) (fx : List ℚ → List ℚ → List ℚ) (params : List ℚ)
    (nbins : ℕ) (x_range : Option (ℚ × ℚ))
    (H : NPArr) (bl : List ℚ) (bw : ℚ) (fit : List ℚ × ℤ)
    (hn : 1 ≤ nbins)
    (hlo : (histRange X x_range).1 ≤ (histRange X x_range).2)
    (hret : fit2histogram np_histogram lsq X fx params nbins x_range =
      some (H, bl, bw, fit)) :
    |bw - ((histRange X x_range).2 - (histRange X x_range).1) / nbins| ≤
      1 / 1000000 := by
  match X with
  | [] => simp [fit2histogram] at hret
  | r0 :: rest =>
    have hw := rounded_bin_widths_np (r0 :: rest) nbins x_range hn
    simp only [fit2histogram, hw, Option.some.injEq, Prod.mk.injEq] at hret
    obtain ⟨-, -, hbw, -⟩ := hret
    set d := ((histRange (r0 :: rest) x_range).2 -
      (histRange (r0 :: rest) x_range).1) / (nbins : ℚ) with hd
    have hd0 : 0 ≤ d := by
      rw [hd]
      apply div_nonneg (by linarith)
      positivity
    have h1 : |round6 (-d) - -d| ≤ 1 / 2000000 := abs_round6_sub (-d)
    calc |bw - d| = abs (|round6 (-d)| - |(-d)|) := by
          rw [← hbw, abs_neg, abs_of_nonneg hd0]
      _ ≤ |round6 (-d) - -d| := abs_abs_sub_abs_le_abs_sub _ _
      _ ≤ 1 / 2000000 := h1
      _ ≤ 1 / 1000000 := by norm_num

lemma fit2histogram_eval_example :
    fit2histogram np_histogram probe_solver [[]] probe_fx [] 1 (some (0, 1)) =
      some (NPArr.d1 [0], [0], 1, ([], 1)) := by
  have hw := rounded_bin_widths_np [[]] 1 (some (0, 1)) le_rfl
  simp only [fit2histogram, hw]
  norm_num [histRange, np_histogram, np_linspace, round6, round_eq,
    least_sq_fit, NPArr.sub, probe_fx, probe_solver, List.range_succ]

/-- Witness for C9 at `X = [[]]`, `nbins = 1`, `x_range = (0, 1)`, where
the pipeline returns `bin_width = 1`. -/
theorem fit2histogram_bin_width_witness :
    1 ≤ 1 ∧
      (histRange [[]] (some (0, 1))).1 ≤ (histRange [[]] (some (0, 1))).2 ∧
      |(1 : ℚ) - ((histRange [[]] (some (0, 1))).2 -
        (histRange [[]] (some (0, 1))).1) / ((1 : ℕ) : ℚ)| ≤ 1 / 1000000 :=
  ⟨le_rfl, by norm_num [histRange],
    fit2histogram_bin_width probe_solver [[]] probe_fx [] 1 (some (0, 1))
      (NPArr.d1 [0]) [0] 1 ([], 1) le_rfl (by norm_num [histRange])
      fit2histogram_eval_example⟩

/-- A NumPy 2-D array with run-time shape, idealised over `ℚ`. -/
def NPMat := Σ p : ℕ × ℕ, Matrix (Fin p.1) (Fin p.2) ℚ

/-- The square slice `_vh[:k, :k]` of a `n × n` matrix (`fx.py` line 274,
square case), with NumPy's clamping expressed by `k ≤ n`. -/
def slice_square {n : ℕ} (vh : Matrix (Fin n) (Fin n) ℚ) (k : ℕ)
    (hk : k ≤ n) : Matrix (Fin k) (Fin k) ℚ :=
  Matrix.of fun i j => vh (Fin.castLE hk i) (Fin.castLE hk j)

/-- The determinant test and first-column negation of `fx.py` lines
275-279: `if det(R) < 0: R[:, 0] *= -1`. -/
def flip_if_reflection {k : ℕ} (R : Matrix (Fin k) (Fin k) ℚ) :
    Matrix (Fin k) (Fin k) ℚ :=
  if R.det < 0 then
    Matrix.of (fun i j => if (j : ℕ) = 0 then -(R i j) else R i j)
  else R

/-- The body of `get_random_rotation` after the `if nt is None: nt = ns`
default has been resolved (`fx.py` lines 267-280).  External collaborators
are abstracted: `svd m n M` is the right-singular-vector matrix `_vh` of
NumPy's full SVD of the `m × n` matrix `M` (of shape `n × n` by NumPy's
contract; `_u` and `_s` are unused by the source), and `randn m n` stands
for the `np.random.normal(size=(m, n))` draw.  `data[:, :d]` keeps the
first `min(cols, d)` columns and `_vh[:ns, :nt]` clamps, as NumPy basic
slicing does. -/
def get_random_rotation_core
    (svd : ∀ m n : ℕ, Matrix (Fin m) (Fin n) ℚ → Matrix (Fin n) (Fin n) ℚ)
    (randn : ∀ m n : ℕ, Matrix (Fin m) (Fin n) ℚ)
    (ns nt : ℕ) (data0 : Option NPMat) : NPMat :=
  let d := max ns nt
  let data : NPMat := data0.getD ⟨(d * 10, d), randn (d * 10) d⟩
  let c := min data.1.2 d
  let sliced : Matrix (Fin data.1.1) (Fin c) ℚ :=
    Matrix.of fun i j => data.2 i (Fin.castLE (min_le_left _ _) j)
  let vh := svd data.1.1 c sliced
  if _h : ns = nt then
    ⟨(min ns c, min ns c),
      flip_if_reflection (slice_square vh (min ns c) (min_le_right ns c))⟩
  else
    ⟨(min ns c, min nt c), Matrix.of fun i j =>
      vh (Fin.castLE (min_le_right ns c) i) (Fin.castLE (min_le_right nt c) j)⟩

/-- Model of `get_random_rotation` (`fx.py` lines 254-280): `nt` defaults to `ns`
when not supplied. -/
def get_random_rotation
    (svd : ∀ m n : ℕ, Matrix (Fin m) (Fin n) ℚ → Matrix (Fin n) (Fin n) ℚ)
    (randn : ∀ m n : ℕ, Matrix (Fin m) (Fin n) ℚ)
    (ns : ℕ) (nt0 : Option ℕ) (data0 : Option NPMat) : NPMat :=
  get_random_rotation_core svd randn ns (nt0.getD ns) data0

/-- The SVD stand-in that always reports the identity right-singular-vector
matrix (a legitimate orthogonal `_vh`), used for concrete instances. -/
def svd_id : ∀ m n : ℕ, Matrix (Fin m) (Fin n) ℚ → Matrix (Fin n) (Fin n) ℚ :=
  fun _ _ _ => 1

/-- A stand-in for the random normal draw: the zero matrix. -/
def randn_zero : ∀ m n : ℕ, Matrix (Fin m) (Fin n) ℚ := fun _ _ => 0

/-- C6 counterexample: with user-supplied `data` of shape `(4, 2)` — rank
structure irrelevant, only 2 columns — and `ns = nt = 3`, the returned
matrix has shape `(2, 2)`, not the claimed `(ns, nt) = (3, 3)`: the SVD of
`data[:, :3]` yields a `2 × 2` `_vh` and the slice `_vh[:3, :3]` clamps. -/
theorem get_random_rotation_shape_counterexample :
    (get_random_rotation svd_id randn_zero 3 (some 3) (some ⟨(4, 2), 0⟩)).1 =
        (2, 2) ∧
      ((2, 2) : ℕ × ℕ) ≠ (3, 3) :=
  ⟨rfl, by decide⟩

/-- C6 (amended): `get_random_rotation ns nt data` returns a matrix of
shape `(ns, nt)` (with `nt` defaulting to `ns`) provided user-supplied
`data` has at least `max ns nt` columns; the default random data always
does. -/
theorem get_random_rotation_shape
    (svd : ∀ m n : ℕ, Matrix (Fin m) (Fin n) ℚ → Matrix (Fin n) (Fin n) ℚ)
    (randn : ∀ m n : ℕ, Matrix (Fin m) (Fin n) ℚ)
    (ns : ℕ) (nt0 : Option ℕ) (data0 : Option NPMat)
    (hdata : ∀ mat, data0 = some mat → max ns (nt0.getD ns) ≤ mat.1.2) :
    (get_random_rotation svd randn ns nt0 data0).1 = (ns, nt0.getD ns) := by
  have hc : min (data0.getD ⟨(max ns (nt0.getD ns) * 10, max ns (nt0.getD ns)),
      randn (max ns (nt0.getD ns) * 10) (max ns (nt0.getD ns))⟩).1.2
      (max ns (nt0.getD ns)) = max ns (nt0.getD ns) := by
    cases data0 with
    | none => simp
    | some mat => exact min_eq_right (hdata mat rfl)
  by_cases h : ns = nt0.getD ns
  · simp only [get_random_rotation, get_random_rotation_core, dif_pos h, hc]
    rw [min_eq_left (le_max_left _ _), ← h]
  · simp only [get_random_rotation, get_random_rotation_core, dif_neg h, hc]
    rw [min_eq_left (le_max_left _ _), min_eq_left (le_max_right _ _)]

/-- Witness for C6 (amended) with default data, `ns = 3`, `nt = 2`. -/
theorem get_random_rotation_shape_witness :
    (∀ mat : NPMat, (none : Option NPMat) = some mat →
        max 3 ((some 2).getD 3) ≤ mat.1.2) ∧
      (get_random_rotation svd_id randn_zero 3 (some 2) none).1 =
        (3, (some 2).getD 3) :=
  ⟨fun _ h => Option.noConfusion h,
    get_random_rotation_shape svd_id randn_zero 3 (some 2) none
      (fun _ h => Option.noConfusion h)⟩

lemma slice_square_orth {n k : ℕ} (hk : k ≤ n) (hkn : k = n)
    (V : Matrix (Fin n) (Fin n) ℚ) (hV : V * Vᵀ = 1) :
    slice_square V k hk * (slice_square V k hk)ᵀ = 1 ∧
      (slice_square V k hk).det = V.det := by
  have he : slice_square V k hk = V.submatrix (finCongr hkn) (finCongr hkn) := by
    ext i j
    rfl
  refine ⟨?_, by rw [he, Matrix.det_submatrix_equiv_self]⟩
  rw [he, Matrix.transpose_submatrix, Matrix.submatrix_mul_equiv, hV,
    Matrix.submatrix_one_equiv]

lemma flip_mul_diagonal {k : ℕ} (R : Matrix (Fin k) (Fin k) ℚ) :
    Matrix.of (fun (i j : Fin k) => if (j : ℕ) = 0 then -(R i j) else R i j) =
      R * Matrix.diagonal (fun j : Fin k =>
        if (j : ℕ) = 0 then (-1 : ℚ) else 1) := by
  ext i j
  rw [Matrix.mul_diagonal, Matrix.of_apply]
  by_cases h : (j : ℕ) = 0
  · rw [if_pos h, if_pos h]
    ring
  · rw [if_neg h, if_neg h]
    ring

lemma det_flip_diag {k : ℕ} (hk : 0 < k) :
    (Matrix.diagonal (fun j : Fin k =>
      if (j : ℕ) = 0 then (-1 : ℚ) else 1)).det = -1 := by
  rw [Matrix.det_diagonal, Finset.prod_eq_single (⟨0, hk⟩ : Fin k)]
  · simp
  · intro b _ hb
    rw [if_neg (fun h0 => hb (Fin.ext h0))]
  · intro habs
    exact absurd (Finset.mem_univ _) habs

lemma diag_flip_sq {k : ℕ} :
    Matrix.diagonal (fun j : Fin k => if (j : ℕ) = 0 then (-1 : ℚ) else 1) *
      Matrix.diagonal (fun j : Fin k =>
        if (j : ℕ) = 0 then (-1 : ℚ) else 1) = 1 := by
  rw [Matrix.diagonal_mul_diagonal,
    show (fun j : Fin k => (if (j : ℕ) = 0 then (-1 : ℚ) else 1) *
        (if (j : ℕ) = 0 then (-1 : ℚ) else 1)) = fun _ => 1 from
      funext fun j => by by_cases h : (j : ℕ) = 0 <;> simp [h],
    Matrix.diagonal_one]

lemma flip_if_reflection_proper {k : ℕ} (R : Matrix (Fin k) (Fin k) ℚ)
    (horth : R * Rᵀ = 1) (hdet : R.det = 1 ∨ R.det = -1) :
    flip_if_reflection R * (flip_if_reflection R)ᵀ = 1 ∧
      (flip_if_reflection R).det = 1 := by
  unfold flip_if_reflection
  by_cases hneg : R.det < 0
  · rw [if_pos hneg]
    have hk : 0 < k := by
      by_contra hk0
      have hk0' : k = 0 := by omega
      subst hk0'
      rw [Matrix.det_fin_zero] at hneg
      norm_num at hneg
    have hdetR : R.det = -1 := by
      rcases hdet with h | h
      · rw [h] at hneg
        norm_num at hneg
      · exact h
    rw [flip_mul_diagonal]
    constructor
    · rw [Matrix.transpose_mul, Matrix.diagonal_transpose, Matrix.mul_assoc,
        ← Matrix.mul_assoc (Matrix.diagonal _) (Matrix.diagonal _) Rᵀ,
        diag_flip_sq, Matrix.one_mul, horth]
    · rw [Matrix.det_mul, hdetR, det_flip_diag hk]
      norm_num
  · rw [if_neg hneg]
    refine ⟨horth, ?_⟩
    rcases hdet with h | h
    · exact h
    · exact absurd (by rw [h]; norm_num) hneg

/-- C7: in the square case (`nt` defaulting or equal to `ns`), given that
the external SVD's `_vh` is orthogonal (NumPy's contract), the returned
matrix is a proper rotation: `R * Rᵀ = 1` and `det R = 1`; the first
column is negated exactly when the candidate's determinant is negative,
which is what makes the determinant `+1`. -/
theorem get_random_rotation_proper
    (svd : ∀ m n : ℕ, Matrix (Fin m) (Fin n) ℚ → Matrix (Fin n) (Fin n) ℚ)
    (randn : ∀ m n : ℕ, Matrix (Fin m) (Fin n) ℚ)
    (ns : ℕ) (nt0 : Option ℕ) (data0 : Option NPMat)
    (horth : ∀ m n (M : Matrix (Fin m) (Fin n) ℚ),
      svd m n M * (svd m n M)ᵀ = 1)
    (hnt : nt0.getD ns = ns)
    (c : ℕ) (R : Matrix (Fin c) (Fin c) ℚ)
    (hret : get_random_rotation svd randn ns nt0 data0 = ⟨(c, c), R⟩) :
    R * Rᵀ = 1 ∧ R.det = 1 := by
  unfold get_random_rotation at hret
  rw [hnt] at hret
  simp only [get_random_rotation_core] at hret
  rw [dif_pos trivial] at hret
  have hfst := congrArg (fun s : NPMat => s.1.1) hret
  simp only at hfst
  subst hfst
  injection hret with h1 h2
  set D := (data0.getD ⟨(max ns ns * 10, max ns ns),
    randn (max ns ns * 10) (max ns ns)⟩ : NPMat) with hD
  set C := min D.1.2 (max ns ns) with hC
  have hCle : C ≤ ns := le_trans (min_le_right _ _) (le_of_eq (max_self ns))
  have hkn : min ns C = C := min_eq_right hCle
  set vh := svd D.1.1 C (Matrix.of fun i j =>
    D.2 i (Fin.castLE (min_le_left D.1.2 (max ns ns)) j)) with hvh
  have hdetvh : vh.det = 1 ∨ vh.det = -1 := by
    have h3 := congrArg Matrix.det (horth D.1.1 C (Matrix.of fun i j =>
      D.2 i (Fin.castLE (min_le_left D.1.2 (max ns ns)) j)))
    rw [Matrix.det_mul, Matrix.det_transpose, Matrix.det_one] at h3
    exact mul_self_eq_one_iff.mp h3
  have hslice := slice_square_orth (min_le_right ns C) hkn vh
    (horth D.1.1 C _)
  subst h2
  exact flip_if_reflection_proper _ hslice.1 (hslice.2 ▸ hdetvh)

lemma slice_square_self {n : ℕ} (V : Matrix (Fin n) (Fin n) ℚ)
    (h : n ≤ n) : slice_square V n h = V := rfl

lemma grr_eval_example :
    get_random_rotation svd_id randn_zero 2 none none = ⟨(2, 2), 1⟩ := by
  show (⟨(2, 2), flip_if_reflection (slice_square
    (1 : Matrix (Fin 2) (Fin 2) ℚ) 2 (Nat.le_refl 2))⟩ : NPMat) = ⟨(2, 2), 1⟩
  rw [slice_square_self]
  unfold flip_if_reflection
  rw [Matrix.det_one, if_neg (by norm_num)]

/-- Witness for C7: with the identity-`_vh` SVD stand-in and `ns = 2`,
`nt` defaulted, the returned matrix is the identity — a proper rotation. -/
theorem get_random_rotation_proper_witness :
    (∀ m n (M : Matrix (Fin m) (Fin n) ℚ),
        svd_id m n M * (svd_id m n M)ᵀ = 1) ∧
      ((none : Option ℕ).getD 2 = 2) ∧
      ((1 : Matrix (Fin 2) (Fin 2) ℚ) * (1 : Matrix (Fin 2) (Fin 2) ℚ)ᵀ = 1 ∧
        (1 : Matrix (Fin 2) (Fin 2) ℚ).det = 1) :=
  ⟨fun _ _ _ => by simp [svd_id], rfl,
    get_random_rotation_proper svd_id randn_zero 2 none none
      (fun _ _ _ => by simp [svd_id]) rfl 2 1
      grr_eval_example⟩

end Fx
